import Mathlib

/-!
# A shallow embedding of `mongo::multiversion_map` (mvmap.h)

The class template `multiversion_map<_Key, _Tp, _TS, _Compare, _TSCompare>` is
embedded with

* `_Key`  : any type `K` with a decidable linear order (`std::less<_Key>`),
* `_TS`   : `Nat` (the default `std::uint64_t`; timestamps are only ever compared,
  never added or subtracted, so no wrap-around can occur),
* `_Tp`   : any type `V`; `mapped_type()` is `default`,
* `std::map<ts_key_type, opmapped_type, keyts_compare>` : the list of its nodes
  in iteration order (a well-formed map is strictly increasing for `keyts_compare`),
* `std::multimap<_TS, ts_key_type>` : the list of its nodes in iteration order,
* a `std::map` iterator : the list of nodes from the cursor to the end
  (`end()` is `[]`, `++it` drops the head),
* `boost::optional<mapped_type>` : `Option V`, `none` being the tombstone.

Undefined behaviour (dereferencing a disengaged optional, incrementing `end()`)
is `none` in an `Option` result; `throw std::out_of_range` is `Except.error`.
-/

namespace mongo

variable {K V : Type}

/-- The pair `ts_key_type = std::pair<_Key, _TS>`. -/
abbrev ts_key_type (K : Type) := K × Nat

/-- The node type `tsmap_type::value_type = pair<ts_key_type, optional<mapped_type>>`. -/
abbrev ts_value_type (K V : Type) := (K × Nat) × Option V

/-- The container `tsmap_type`: the nodes of the `std::map` in iteration order. -/
abbrev tsmap_type (K V : Type) := List (ts_value_type K V)

/-- The container `obsmap_type`: the nodes of the `std::multimap` in iteration order. -/
abbrev obsmap_type (K : Type) := List (Nat × (K × Nat))

/-- The comparator `keyts_compare::operator()` (mvmap.h:82-85). -/
def keyts_compare [LinearOrder K] (x y : ts_key_type K) : Bool :=
  decide (x.1 < y.1) || (!decide (y.1 < x.1) && decide (y.2 < x.2))

/-- The data members of `multiversion_map` (mvmap.h:91-99). -/
structure multiversion_map (K V : Type) where
  _oldest : Nat
  _current : Nat
  _tsmap : tsmap_type K V
  _obsmap : obsmap_type K
deriving DecidableEq, Repr

/-- The constant `kCleansPerUpdate` (mvmap.h:101). -/
def kCleansPerUpdate : Int := 2

/-- The default constructor (mvmap.h:210-216). -/
def multiversion_map.empty : multiversion_map K V := ⟨0, 0, [], []⟩

/-- The member `set_timestamp` (mvmap.h:220-223). -/
def set_timestamp (m : multiversion_map K V) (oldest current : Nat) : multiversion_map K V :=
  { m with _oldest := oldest, _current := current }

/-! ### The `std::map` / `std::multimap` primitives the class calls -/

/-- `std::map::lower_bound`: the cursor on the first node not ordered before `x`. -/
def tsmap_lower_bound [LinearOrder K] (m : tsmap_type K V) (x : ts_key_type K) : tsmap_type K V :=
  m.dropWhile (fun e => keyts_compare e.1 x)

/-- `std::map::upper_bound`: the cursor on the first node ordered after `x`. -/
def tsmap_upper_bound [LinearOrder K] (m : tsmap_type K V) (x : ts_key_type K) : tsmap_type K V :=
  m.dropWhile (fun e => !keyts_compare x e.1)

/-- `std::map::insert(hint, value)`: inserts the node at its place in the order
unless a node with an equivalent key exists, in which case the map is unchanged
(the returned iterator is on the node whose key is equivalent to `v.1`). -/
def tsmap_insert [LinearOrder K] : tsmap_type K V → ts_value_type K V → tsmap_type K V
  | [], v => [v]
  | e :: rest, v =>
    if keyts_compare v.1 e.1 then v :: e :: rest
    else if keyts_compare e.1 v.1 then e :: tsmap_insert rest v
    else e :: rest

/-- `std::map::erase(key)`: removes the node whose key is equivalent to `x`, if any. -/
def tsmap_erase [LinearOrder K] : tsmap_type K V → ts_key_type K → tsmap_type K V
  | [], _ => []
  | e :: rest, x =>
    if !keyts_compare e.1 x && !keyts_compare x e.1 then rest
    else e :: tsmap_erase rest x

/-- `std::map::find(key)->second`: the mapped optional of the node with key `x`. -/
def tsmap_find [LinearOrder K] : tsmap_type K V → ts_key_type K → Option (Option V)
  | [], _ => none
  | e :: rest, x =>
    if !keyts_compare e.1 x && !keyts_compare x e.1 then some e.2
    else tsmap_find rest x

/-- `std::multimap::emplace(ts, keyts)`: inserts after every node whose timestamp
is not greater (the upper bound of the equal range). -/
def obsmap_emplace : obsmap_type K → Nat × (K × Nat) → obsmap_type K
  | [], v => [v]
  | o :: rest, v =>
    if v.1 < o.1 then v :: o :: rest
    else o :: obsmap_emplace rest v

/-! ### Garbage collection -/

/-- The member `has_garbage` (mvmap.h:225-228); `_obsmap.begin().first` is read
as `_obsmap.begin()->first`, the timestamp of the first node. -/
def has_garbage (m : multiversion_map K V) : Bool :=
  match m._obsmap with
  | [] => false
  | o :: _ => decide (o.1 < m._oldest)

/-- The loop of `clean` (mvmap.h:231-237): `i` is the cursor into `_obsmap`,
`n` the countdown, `ts` the version store so far.  The loop only advances `i`;
no node of `_obsmap` is erased. -/
def clean_loop [LinearOrder K] (oldest : Nat) :
    obsmap_type K → Int → tsmap_type K V → tsmap_type K V
  | [], _, ts => ts
  | o :: rest, n, ts =>
    if n = 0 then ts
    else if !decide (o.1 < oldest) then ts
    else clean_loop oldest rest (n - 1) (tsmap_erase ts o.2)

/-- The member `clean(int n)` (mvmap.h:230-238); `n = -1` is the default
argument.  The `int` countdown is an `Int`: from `-1` it never reaches `0`. -/
def clean [LinearOrder K] (m : multiversion_map K V) (n : Int) : multiversion_map K V :=
  { m with _tsmap := clean_loop m._oldest m._obsmap n m._tsmap }

/-! ### Point access -/

/-- The exception `std::out_of_range` thrown by `at`. -/
inductive exception where
  | out_of_range
deriving DecidableEq, Repr

/-- The member `at(const key_type&) const` (mvmap.h:324-333). -/
def at_const [LinearOrder K] (m : multiversion_map K V) (k : K) : Except exception V :=
  match tsmap_lower_bound m._tsmap (k, m._current) with
  | [] => .error .out_of_range
  | e :: _ =>
    if decide (e.1.1 < k) then .error .out_of_range
    else match e.2 with
      | none => .error .out_of_range
      | some v => .ok v

/-- A `mapped_type&` returned by `operator[]` or the mutable `at`: the key of
the node of `_tsmap` whose optional it points into. -/
abbrev mapped_ref (K : Type) := ts_key_type K

/-- Reading through a `mapped_type&`: `none` when the node's optional is
disengaged (or the node is gone), which is undefined behaviour in the source. -/
def read_ref [LinearOrder K] (m : multiversion_map K V) (r : mapped_ref K) : Option V :=
  (tsmap_find m._tsmap r).join

/-- Writing `v` through a `mapped_type&`: the value inside the node's optional
is replaced; `none` when that optional is disengaged (undefined behaviour). -/
def write_ref [LinearOrder K] (m : multiversion_map K V) (r : mapped_ref K) (v : V) :
    Option (multiversion_map K V) :=
  match read_ref m r with
  | none => none
  | some _ =>
    some { m with _tsmap := m._tsmap.map (fun e => if e.1 = r then (e.1, some v) else e) }

/-- The member `operator[]` (mvmap.h:273-292): the new state and the returned
reference `*__i->second`, `__i` being the node with key `(__k, _current)`. -/
def operator_index [LinearOrder K] [Inhabited V] (m : multiversion_map K V) (k : K) :
    multiversion_map K V × mapped_ref K :=
  let m1 := clean m kCleansPerUpdate
  let keyts : ts_key_type K := (k, m1._current)
  match tsmap_lower_bound m1._tsmap keyts with
  | [] => ({ m1 with _tsmap := tsmap_insert m1._tsmap (keyts, some default) }, keyts)
  | e :: _ =>
    if decide (e.1.1 < k) || e.2.isNone then
      ({ m1 with _tsmap := tsmap_insert m1._tsmap (keyts, some default) }, keyts)
    else
      ({ m1 with _obsmap := obsmap_emplace m1._obsmap (m1._current, e.1),
                 _tsmap := tsmap_insert m1._tsmap (keyts, e.2) }, keyts)

/-- The statement `m[k] = v`: `operator[]` followed by a write through the
returned reference. -/
def assign [LinearOrder K] [Inhabited V] (m : multiversion_map K V) (k : K) (v : V) :
    Option (multiversion_map K V) :=
  let r := operator_index m k
  write_ref r.1 r.2 v

/-- The member `erase` (mvmap.h:294-306).  Its last statement,
`_obsmap[_current] = __k`, is not well-typed for a `std::multimap` (no
`operator[]`, and `__k` is a bare key); it is read the way spec §9 reads it:
the tombstone `(__k, _current)` is recorded as obsolete at `_current`. -/
def erase [LinearOrder K] (m : multiversion_map K V) (k : K) : multiversion_map K V :=
  let m1 := clean m kCleansPerUpdate
  let keyts : ts_key_type K := (k, m1._current)
  match tsmap_lower_bound m1._tsmap keyts with
  | [] => m1
  | e :: _ =>
    if decide (e.1.1 < k) || e.2.isNone then m1
    else
      { m1 with
        _obsmap := obsmap_emplace (obsmap_emplace m1._obsmap (m1._current, e.1))
                     (m1._current, keyts),
        _tsmap := tsmap_insert m1._tsmap (keyts, none) }

/-- The member `at(const key_type&)` (mutable, mvmap.h:308-322): throws, or
gives the new state and the returned reference. -/
def at_mut [LinearOrder K] (m : multiversion_map K V) (k : K) :
    Except exception (multiversion_map K V × mapped_ref K) :=
  let m1 := clean m kCleansPerUpdate
  let keyts : ts_key_type K := (k, m1._current)
  match tsmap_lower_bound m1._tsmap keyts with
  | [] => .error .out_of_range
  | e :: _ =>
    if decide (e.1.1 < k) || e.2.isNone then .error .out_of_range
    else
      .ok ({ m1 with _obsmap := obsmap_emplace m1._obsmap (m1._current, e.1),
                     _tsmap := tsmap_insert m1._tsmap (keyts, e.2) }, keyts)

/-! ### Snapshot iteration -/

/-- The members `_timestamp` and `_tsiter` of `const_multiversion_iterator`
(mvmap.h:188-189); `_tsiter` is the list of nodes from the cursor to the end. -/
structure const_multiversion_iterator (K V : Type) where
  _timestamp : Nat
  _tsiter : tsmap_type K V
deriving DecidableEq, Repr

/-- The `while` loop of `next` (mvmap.h:158-169); the list argument is what
follows the cursor, so that its head is the node `++_tsiter` lands on. -/
def next_loop [LinearOrder K] (timestamp : Nat) :
    Option K → tsmap_type K V → tsmap_type K V
  | _, [] => []
  | current_key, e :: rest =>
    if decide (timestamp < e.1.2) then next_loop timestamp current_key rest
    else
      let current_key1 := if e.2.isNone then some e.1.1 else current_key
      match current_key1 with
      | none => e :: rest
      | some ck => if e.1.1 ≠ ck then e :: rest else next_loop timestamp (some ck) rest

/-- The member `next(bool positioned)` (mvmap.h:152-170); `none` when called at
`end()`, where `++_tsiter` is undefined. -/
def next [LinearOrder K] (i : const_multiversion_iterator K V) (positioned : Bool) :
    Option (const_multiversion_iterator K V) :=
  match i._tsiter with
  | [] => none
  | e :: rest =>
    some ⟨i._timestamp,
      next_loop i._timestamp (if positioned then some e.1.1 else none) rest⟩

/-- The constructor of `const_multiversion_iterator` (mvmap.h:112-128). -/
def const_multiversion_iterator.mk1 [LinearOrder K] (timestamp : Nat)
    (tsiter : tsmap_type K V) : const_multiversion_iterator K V :=
  match tsiter with
  | [] => ⟨timestamp, []⟩
  | e :: rest =>
    if decide (timestamp < e.1.2) || e.2.isNone then
      ⟨timestamp, next_loop timestamp none rest⟩
    else ⟨timestamp, e :: rest⟩

/-- The member `operator*` (mvmap.h:135-140); `none` at `end()` or on a
tombstone, where the source's dereference is undefined. -/
def deref (i : const_multiversion_iterator K V) : Option (K × V) :=
  match i._tsiter with
  | [] => none
  | e :: _ => e.2.map (fun v => (e.1.1, v))

/-- The members `operator++` (mvmap.h:172-182): `next(_tsiter != _tsmap.end())`. -/
def incr [LinearOrder K] (i : const_multiversion_iterator K V) :
    Option (const_multiversion_iterator K V) :=
  next i (!i._tsiter.isEmpty)

/-- The member `begin` (mvmap.h:246-249). -/
def multiversion_map.begin [LinearOrder K] (m : multiversion_map K V) :
    const_multiversion_iterator K V :=
  const_multiversion_iterator.mk1 m._current m._tsmap

/-- The member `end` (mvmap.h:250-253). -/
def multiversion_map.end [LinearOrder K] (m : multiversion_map K V) :
    const_multiversion_iterator K V :=
  const_multiversion_iterator.mk1 m._current []

/-- The member `lower_bound` (mvmap.h:255-259). -/
def multiversion_map.lower_bound [LinearOrder K] (m : multiversion_map K V) (x : K) :
    const_multiversion_iterator K V :=
  const_multiversion_iterator.mk1 m._current (tsmap_lower_bound m._tsmap (x, m._current))

/-- The member `upper_bound` (mvmap.h:261-265). -/
def multiversion_map.upper_bound [LinearOrder K] (m : multiversion_map K V) (x : K) :
    const_multiversion_iterator K V :=
  const_multiversion_iterator.mk1 m._current (tsmap_upper_bound m._tsmap (x, m._current))

/-- The loop of `dump_map` (test_mvmap.cpp:7-9),
`for (i = begin(); i != end(); i++) out(*i)`, collecting the pairs `*i`; `fuel`
bounds the number of rounds, and `none` is undefined behaviour (or no fuel). -/
def dump_loop [LinearOrder K] :
    Nat → const_multiversion_iterator K V → Option (List (K × V))
  | 0, _ => none
  | fuel + 1, i =>
    match i._tsiter with
    | [] => some []
    | _ :: _ =>
      match deref i, incr i with
      | some p, some i1 => (dump_loop fuel i1).map (fun ps => p :: ps)
      | _, _ => none

/-- The function `dump_map` (test_mvmap.cpp:6-11): the pairs an iteration from
`begin()` to `end()` yields.  Every round moves the cursor forward, so one more
round than there are nodes is enough fuel. -/
def dump_map [LinearOrder K] (m : multiversion_map K V) : Option (List (K × V)) :=
  dump_loop (m._tsmap.length + 1) m.begin

/-- The class invariant of `std::map`: the nodes are strictly increasing for the
comparator `keyts_compare` (so no two nodes have the same key and timestamp). -/
def tsmap_sorted [LinearOrder K] (m : tsmap_type K V) : Prop :=
  m.Pairwise (fun a b => keyts_compare a.1 b.1 = true)

/-! ### Reference model: an ordinary unversioned `std::map` -/

/-- An unversioned `std::map<_Key, _Tp>`: its nodes in key order. -/
abbrev std_map (K V : Type) := List (K × V)

/-- Reference model: the statement `m[k] = v` on an unversioned `std::map`. -/
def std_map_assign [LinearOrder K] : std_map K V → K → V → std_map K V
  | [], k, v => [(k, v)]
  | e :: rest, k, v =>
    if k < e.1 then (k, v) :: e :: rest
    else if e.1 < k then e :: std_map_assign rest k v
    else (e.1, v) :: rest

/-- Reference model: `erase(k)` on an unversioned `std::map`. -/
def std_map_erase [LinearOrder K] : std_map K V → K → std_map K V
  | [], _ => []
  | e :: rest, k =>
    if k < e.1 then e :: rest
    else if e.1 < k then e :: std_map_erase rest k
    else rest

/-- Reference model: `at(k) const` on an unversioned `std::map`. -/
def std_map_at [LinearOrder K] : std_map K V → K → Except exception V
  | [], _ => .error .out_of_range
  | e :: rest, k =>
    if k < e.1 then .error .out_of_range
    else if e.1 < k then std_map_at rest k
    else .ok e.2

/-- Reference model: iterating an unversioned `std::map` from `begin()` to
`end()` yields its nodes in key order. -/
def std_map_dump (m : std_map K V) : List (K × V) := m

/-- A call of the map interface: `m[k] = v` or `m.erase(k)`. -/
inductive map_op (K V : Type) where
  | assign (k : K) (v : V)
  | erase (k : K)
deriving DecidableEq, Repr

/-- Runs a sequence of calls on a `multiversion_map` (`none`: undefined behaviour). -/
def run_mvmap [LinearOrder K] [Inhabited V] :
    List (map_op K V) → multiversion_map K V → Option (multiversion_map K V)
  | [], m => some m
  | .assign k v :: ops, m =>
    match assign m k v with
    | none => none
    | some m1 => run_mvmap ops m1
  | .erase k :: ops, m => run_mvmap ops (erase m k)

/-- Runs the same sequence of calls on the unversioned reference `std::map`. -/
def run_std_map [LinearOrder K] : List (map_op K V) → std_map K V → std_map K V
  | [], m => m
  | .assign k v :: ops, m => run_std_map ops (std_map_assign m k v)
  | .erase k :: ops, m => run_std_map ops (std_map_erase m k)

/-! ### Example states (keys and values are natural numbers) -/

/-- The state after `m[1] = 1` at `current = 3`, then `set_timestamp(0, 5)` and
`erase(1)`: the newest version of key `1` is a tombstone. -/
def state_erased : multiversion_map Nat Nat :=
  ⟨0, 5, [((1, 5), none), ((1, 3), some 1)], [(5, (1, 3)), (5, (1, 5))]⟩

/-- The state after `m[1] = 10; m[1] = 20` at `current = 0`, then
`set_timestamp(1, 1)`. -/
def state_overwritten : multiversion_map Nat Nat :=
  ⟨1, 1, [((1, 0), some 20)], [(0, (1, 0))]⟩

/-- The state after `m[2] = 7` at `current = 0`. -/
def state_single : multiversion_map Nat Nat :=
  ⟨0, 0, [((2, 0), some 7)], []⟩

/-- The state after `m[1] = 1` at `current = 0`, `set_timestamp(0, 5)`,
`m[1] = 2` and `set_timestamp(6, 10)`: version `(1, 0)` is garbage. -/
def state_garbage : multiversion_map Nat Nat :=
  ⟨6, 10, [((1, 5), some 2), ((1, 0), some 1)], [(5, (1, 0))]⟩

/-- A store in which key `1` was erased at `current = 5`, with an empty
obsolete index. -/
def state_tombstone : multiversion_map Nat Nat :=
  ⟨0, 5, [((1, 5), none), ((1, 3), some 7)], []⟩

/-- The state after `m[1] = 7` at `current = 0`. -/
def state_one : multiversion_map Nat Nat :=
  ⟨0, 0, [((1, 0), some 7)], []⟩

/-- The state after `m[1] = 7; m.erase(1)` at `current = 0`. -/
def state_one_erased : multiversion_map Nat Nat :=
  ⟨0, 0, [((1, 0), some 7)], [(0, (1, 0)), (0, (1, 0))]⟩

/-- A store holding the version `(1, 0) = 10` and nothing else, at `current = 4`. -/
def state_old_version : multiversion_map Nat Nat :=
  ⟨0, 4, [((1, 0), some 10)], []⟩

/-- A store holding the version `(2, 0) = 7` and nothing else, at `current = 5`. -/
def state_history : multiversion_map Nat Nat :=
  ⟨0, 5, [((2, 0), some 7)], []⟩

/-- A store in which key `2`, written at `0`, was erased at `1`, at `current = 5`. -/
def state_history_erased : multiversion_map Nat Nat :=
  ⟨0, 5, [((2, 1), none), ((2, 0), some 7)], []⟩

/-- The state after `m[1] = 1; m[2] = 2; m[3] = 3` at `current = 0`, then
`m[1] = 4`, `m[2] = 5`, `m[3] = 6` at `current = 4, 5, 6`, then
`set_timestamp(7, 7)`: three obsolete versions lie below `oldest`. -/
def state_three_obsolete : multiversion_map Nat Nat :=
  ⟨7, 7,
    [((1, 4), some 4), ((1, 0), some 1), ((2, 5), some 5), ((2, 0), some 2),
     ((3, 6), some 6), ((3, 0), some 3)],
    [(4, (1, 0)), (5, (2, 0)), (6, (3, 0))]⟩

instance [DecidableEq V] : DecidableEq (Except exception V) := fun a b =>
  match a, b with
  | .ok x, .ok y => if h : x = y then isTrue (by rw [h]) else isFalse (by intro hh; cases hh; exact h rfl)
  | .error x, .error y =>
    if h : x = y then isTrue (by rw [h]) else isFalse (by intro hh; cases hh; exact h rfl)
  | .ok _, .error _ => isFalse (by intro hh; cases hh)
  | .error _, .ok _ => isFalse (by intro hh; cases hh)


/-! ## Properties -/

theorem keyts_compare_iff [LinearOrder K] (x y : ts_key_type K) :
    keyts_compare x y = true ↔ x.1 < y.1 ∨ (x.1 = y.1 ∧ y.2 < x.2) := by
  unfold keyts_compare
  simp only [Bool.or_eq_true, Bool.and_eq_true, Bool.not_eq_true', decide_eq_true_eq,
    decide_eq_false_iff_not, not_lt]
  constructor
  · rintro (h | ⟨h1, h2⟩)
    · exact Or.inl h
    · rcases lt_or_eq_of_le h1 with h | h
      · exact Or.inl h
      · exact Or.inr ⟨h, h2⟩
  · rintro (h | ⟨h1, h2⟩)
    · exact Or.inl h
    · exact Or.inr ⟨le_of_eq h1, h2⟩

theorem keyts_compare_irrefl [LinearOrder K] (x : ts_key_type K) :
    keyts_compare x x = false := by
  rw [Bool.eq_false_iff]
  intro h
  rcases (keyts_compare_iff x x).1 h with h | ⟨_, h⟩
  · exact lt_irrefl _ h
  · exact lt_irrefl _ h

theorem keyts_compare_trans [LinearOrder K] {x y z : ts_key_type K}
    (hxy : keyts_compare x y = true) (hyz : keyts_compare y z = true) :
    keyts_compare x z = true := by
  rw [keyts_compare_iff] at *
  rcases hxy with h1 | ⟨h1, h2⟩ <;> rcases hyz with h3 | ⟨h3, h4⟩
  · exact Or.inl (lt_trans h1 h3)
  · exact Or.inl (h3 ▸ h1)
  · exact Or.inl (h1 ▸ h3)
  · exact Or.inr ⟨h1.trans h3, lt_trans h4 h2⟩

theorem keyts_compare_asymm [LinearOrder K] {x y : ts_key_type K}
    (hxy : keyts_compare x y = true) : keyts_compare y x = false := by
  rw [Bool.eq_false_iff]
  intro h
  have := keyts_compare_trans hxy h
  rw [keyts_compare_irrefl] at this
  exact Bool.false_ne_true this

/-- Two keys neither of which is ordered before the other are equal. -/
theorem keyts_equiv_iff [LinearOrder K] (x y : ts_key_type K) :
    (!keyts_compare x y && !keyts_compare y x) = true ↔ x = y := by
  constructor
  · intro h
    simp only [Bool.and_eq_true, Bool.not_eq_true'] at h
    obtain ⟨h1, h2⟩ := h
    have n1 : ¬ (x.1 < y.1 ∨ (x.1 = y.1 ∧ y.2 < x.2)) := by
      rw [← keyts_compare_iff, h1]; exact Bool.false_ne_true
    have n2 : ¬ (y.1 < x.1 ∨ (y.1 = x.1 ∧ x.2 < y.2)) := by
      rw [← keyts_compare_iff, h2]; exact Bool.false_ne_true
    push_neg at n1 n2
    have hk : x.1 = y.1 := le_antisymm n2.1 n1.1
    have ht : x.2 = y.2 := le_antisymm (n1.2 hk) (n2.2 hk.symm)
    exact Prod.ext hk ht
  · rintro rfl
    simp [keyts_compare_irrefl]

theorem tsmap_sorted_cons [LinearOrder K] {a : ts_value_type K V} {l : tsmap_type K V} :
    tsmap_sorted (a :: l) ↔ (∀ b ∈ l, keyts_compare a.1 b.1 = true) ∧ tsmap_sorted l := by
  unfold tsmap_sorted
  exact List.pairwise_cons

theorem tsmap_sorted_of_sublist [LinearOrder K] {l1 l2 : tsmap_type K V}
    (h : l1.Sublist l2) (hs : tsmap_sorted l2) : tsmap_sorted l1 :=
  List.Pairwise.sublist h hs

/-- In a well-formed store a key and timestamp name at most one node. -/
theorem tsmap_sorted_unique [LinearOrder K] {m : tsmap_type K V} (hs : tsmap_sorted m)
    {a b : ts_value_type K V} (ha : a ∈ m) (hb : b ∈ m) (hab : a.1 = b.1) : a = b := by
  induction m with
  | nil => cases ha
  | cons c l ih =>
    rw [tsmap_sorted_cons] at hs
    rcases List.mem_cons.1 ha with rfl | ha1 <;> rcases List.mem_cons.1 hb with rfl | hb1
    · rfl
    · have := hs.1 b hb1
      rw [hab, keyts_compare_irrefl] at this
      exact absurd this Bool.false_ne_true
    · have := hs.1 a ha1
      rw [← hab, keyts_compare_irrefl] at this
      exact absurd this Bool.false_ne_true
    · exact ih hs.2 ha1 hb1

theorem tsmap_lower_bound_cons [LinearOrder K] (c : ts_value_type K V) (l : tsmap_type K V)
    (x : ts_key_type K) :
    tsmap_lower_bound (c :: l) x
      = if keyts_compare c.1 x = true then tsmap_lower_bound l x else c :: l := by
  unfold tsmap_lower_bound
  rw [List.dropWhile_cons]

/-- The probe `_tsmap.lower_bound((k, T))` on a well-formed store lands on the
newest version of `k` with timestamp at most `T`, when there is one. -/
theorem tsmap_lower_bound_newest [LinearOrder K] {m : tsmap_type K V} (hs : tsmap_sorted m)
    {k : K} {T : Nat} {e : ts_value_type K V} (he : e ∈ m) (hk : e.1.1 = k) (hT : e.1.2 ≤ T)
    (hmax : ∀ a ∈ m, a.1.1 = k → a.1.2 ≤ T → a.1.2 ≤ e.1.2) :
    ∃ rest, tsmap_lower_bound m (k, T) = e :: rest := by
  induction m with
  | nil => cases he
  | cons c l ih =>
    rw [tsmap_sorted_cons] at hs
    rw [tsmap_lower_bound_cons]
    by_cases hc : keyts_compare c.1 (k, T) = true
    · rw [if_pos hc]
      have hne : e ≠ c := by
        rintro rfl
        rcases (keyts_compare_iff _ _).1 hc with h | ⟨_, h⟩
        · exact absurd hk (ne_of_lt h)
        · exact absurd hT (not_le_of_lt h)
      have he1 : e ∈ l := by
        rcases List.mem_cons.1 he with h | h
        · exact absurd h hne
        · exact h
      exact ih hs.2 he1 (fun a ha => hmax a (List.mem_cons_of_mem _ ha))
    · rw [if_neg hc]
      rcases List.mem_cons.1 he with h | h
      · exact ⟨l, by rw [h]⟩
      · exfalso
        have hce := (keyts_compare_iff _ _).1 (hs.1 e h)
        have hnc : ¬ (c.1.1 < k ∨ (c.1.1 = k ∧ T < c.1.2)) := by
          intro hh; exact hc ((keyts_compare_iff c.1 (k, T)).2 hh)
        push_neg at hnc
        rcases hce with h1 | ⟨h1, h2⟩
        · rw [hk] at h1
          exact absurd h1 (not_lt_of_le hnc.1)
        · have hck : c.1.1 = k := h1.trans hk
          have := hmax c (List.mem_cons_self _ _) hck (hnc.2 hck)
          exact absurd h2 (not_lt_of_le this)

/-- The probe finds nothing when every node is ordered before `(k, T)`. -/
theorem tsmap_lower_bound_nil [LinearOrder K] {m : tsmap_type K V} {k : K} {T : Nat}
    (h : ∀ a ∈ m, a.1.1 < k ∨ (a.1.1 = k ∧ T < a.1.2)) :
    tsmap_lower_bound m (k, T) = [] := by
  unfold tsmap_lower_bound
  rw [List.dropWhile_eq_nil_iff]
  intro a ha
  exact (keyts_compare_iff a.1 (k, T)).2 (h a ha)

/-! ### `std::map::insert` -/

theorem mem_tsmap_insert_of_mem [LinearOrder K] {m : tsmap_type K V} {e : ts_value_type K V}
    (v : ts_value_type K V) (he : e ∈ m) : e ∈ tsmap_insert m v := by
  induction m with
  | nil => cases he
  | cons c l ih =>
    unfold tsmap_insert
    split_ifs with h1 h2
    · exact List.mem_cons_of_mem _ he
    · rcases List.mem_cons.1 he with h | h
      · rw [h]; exact List.mem_cons_self _ _
      · exact List.mem_cons_of_mem _ (ih h)
    · exact he

theorem mem_or_eq_of_mem_tsmap_insert [LinearOrder K] {m : tsmap_type K V}
    {e v : ts_value_type K V} (he : e ∈ tsmap_insert m v) : e = v ∨ e ∈ m := by
  induction m with
  | nil =>
    unfold tsmap_insert at he
    exact Or.inl (List.mem_singleton.1 he)
  | cons c l ih =>
    unfold tsmap_insert at he
    split_ifs at he with h1 h2
    · rcases List.mem_cons.1 he with h | h
      · exact Or.inl h
      · exact Or.inr h
    · rcases List.mem_cons.1 he with h | h
      · rw [h]; exact Or.inr (List.mem_cons_self _ _)
      · rcases ih h with h3 | h3
        · exact Or.inl h3
        · exact Or.inr (List.mem_cons_of_mem _ h3)
    · exact Or.inr he

/-- A node whose key is not yet in the store is really inserted. -/
theorem mem_tsmap_insert_self [LinearOrder K] {m : tsmap_type K V} {v : ts_value_type K V}
    (hnew : ∀ a ∈ m, a.1 ≠ v.1) : v ∈ tsmap_insert m v := by
  induction m with
  | nil => unfold tsmap_insert; exact List.mem_singleton.2 rfl
  | cons c l ih =>
    unfold tsmap_insert
    split_ifs with h1 h2
    · exact List.mem_cons_self _ _
    · exact List.mem_cons_of_mem _ (ih (fun a ha => hnew a (List.mem_cons_of_mem _ ha)))
    · exfalso
      have : (!keyts_compare c.1 v.1 && !keyts_compare v.1 c.1) = true := by
        simp only [Bool.and_eq_true, Bool.not_eq_true']
        exact ⟨by simpa using h2, by simpa using h1⟩
      exact hnew c (List.mem_cons_self _ _) ((keyts_equiv_iff _ _).1 this)

/-- Inserting a node whose key is already in a well-formed store changes nothing. -/
theorem tsmap_insert_of_mem_key [LinearOrder K] {m : tsmap_type K V} (hs : tsmap_sorted m)
    {a v : ts_value_type K V} (ha : a ∈ m) (hk : a.1 = v.1) : tsmap_insert m v = m := by
  induction m with
  | nil => cases ha
  | cons c l ih =>
    rw [tsmap_sorted_cons] at hs
    unfold tsmap_insert
    rcases List.mem_cons.1 ha with h | h
    · subst h
      rw [hk, keyts_compare_irrefl]
      simp
    · have hca : keyts_compare c.1 v.1 = true := hk ▸ hs.1 a h
      rw [keyts_compare_asymm hca, hca]
      simp only [Bool.false_eq_true, if_false, if_true]
      rw [ih hs.2 h]

theorem tsmap_insert_sorted [LinearOrder K] {m : tsmap_type K V} (hs : tsmap_sorted m)
    (v : ts_value_type K V) : tsmap_sorted (tsmap_insert m v) := by
  induction m with
  | nil =>
    unfold tsmap_insert tsmap_sorted
    exact List.pairwise_singleton _ _
  | cons c l ih =>
    have hs1 := tsmap_sorted_cons.1 hs
    unfold tsmap_insert
    split_ifs with h1 h2
    · rw [tsmap_sorted_cons]
      refine ⟨?_, hs⟩
      intro b hb
      rcases List.mem_cons.1 hb with h | h
      · rw [h]; exact h1
      · exact keyts_compare_trans h1 (hs1.1 b h)
    · rw [tsmap_sorted_cons]
      refine ⟨?_, ih hs1.2⟩
      intro b hb
      rcases mem_or_eq_of_mem_tsmap_insert hb with h | h
      · rw [h]; exact h2
      · exact hs1.1 b h
    · exact hs

/-! ### `std::map::erase` and `std::map::find` -/

theorem tsmap_erase_sublist [LinearOrder K] (m : tsmap_type K V) (x : ts_key_type K) :
    (tsmap_erase m x).Sublist m := by
  induction m with
  | nil => unfold tsmap_erase; exact List.Sublist.refl _
  | cons c l ih =>
    unfold tsmap_erase
    split_ifs with h
    · exact List.sublist_cons_self _ _
    · exact List.Sublist.cons₂ _ ih

theorem tsmap_erase_length [LinearOrder K] (m : tsmap_type K V) (x : ts_key_type K) :
    m.length ≤ (tsmap_erase m x).length + 1 := by
  induction m with
  | nil => unfold tsmap_erase; simp
  | cons c l ih =>
    unfold tsmap_erase
    split_ifs with h
    · simp
    · simp only [List.length_cons]
      omega

/-- The only node `erase(x)` can remove is the one with key `x`. -/
theorem key_eq_of_mem_of_not_mem_tsmap_erase [LinearOrder K] {m : tsmap_type K V}
    {x : ts_key_type K} {e : ts_value_type K V} (he : e ∈ m) (hne : e ∉ tsmap_erase m x) :
    e.1 = x := by
  induction m with
  | nil => cases he
  | cons c l ih =>
    unfold tsmap_erase at hne
    split_ifs at hne with h
    · rcases List.mem_cons.1 he with h1 | h1
      · rw [h1]; exact (keyts_equiv_iff _ _).1 h
      · exact absurd h1 hne
    · rcases List.mem_cons.1 he with h1 | h1
      · rw [h1] at hne; exact absurd (List.mem_cons_self _ _) hne
      · exact ih h1 (fun hh => hne (List.mem_cons_of_mem _ hh))

theorem tsmap_find_of_mem [LinearOrder K] {m : tsmap_type K V} (hs : tsmap_sorted m)
    {e : ts_value_type K V} (he : e ∈ m) : tsmap_find m e.1 = some e.2 := by
  induction m with
  | nil => cases he
  | cons c l ih =>
    rw [tsmap_sorted_cons] at hs
    unfold tsmap_find
    rcases List.mem_cons.1 he with h | h
    · subst h
      rw [if_pos ((keyts_equiv_iff _ _).2 rfl)]
    · have hce := hs.1 e h
      have : ¬ (!keyts_compare c.1 e.1 && !keyts_compare e.1 c.1) = true := by
        rw [hce]; simp
      rw [if_neg this]
      exact ih hs.2 h

/-! ### `clean` -/

/-- Without garbage the loop of `clean` stops at once, whatever its budget. -/
theorem clean_of_no_garbage [LinearOrder K] (m : multiversion_map K V) (n : Int)
    (h : has_garbage m = false) : clean m n = m := by
  obtain ⟨oldest, current, ts, obs⟩ := m
  unfold clean
  cases obs with
  | nil => unfold clean_loop; rfl
  | cons o rest =>
    unfold has_garbage at h
    simp only at h
    unfold clean_loop
    simp only [h]
    split_ifs with h1 h2
    · rfl
    · rfl
    · exact absurd rfl h2

/-- The member `clean` never touches `_obsmap`, `_oldest` or `_current`. -/
theorem clean_frame [LinearOrder K] (m : multiversion_map K V) (n : Int) :
    (clean m n)._obsmap = m._obsmap ∧ (clean m n)._oldest = m._oldest
      ∧ (clean m n)._current = m._current :=
  ⟨rfl, rfl, rfl⟩

theorem clean_loop_sublist [LinearOrder K] (oldest : Nat) (obs : obsmap_type K) :
    ∀ (n : Int) (ts : tsmap_type K V), (clean_loop oldest obs n ts).Sublist ts := by
  induction obs with
  | nil => intro n ts; unfold clean_loop; exact List.Sublist.refl _
  | cons o rest ih =>
    intro n ts
    unfold clean_loop
    split_ifs with h1 h2
    · exact List.Sublist.refl _
    · exact List.Sublist.refl _
    · exact (ih (n - 1) _).trans (tsmap_erase_sublist ts o.2)

theorem clean_loop_removed [LinearOrder K] (oldest : Nat) (obs : obsmap_type K) :
    ∀ (n : Int) (ts : tsmap_type K V) (e : ts_value_type K V), e ∈ ts →
      e ∉ clean_loop oldest obs n ts → ∃ o ∈ obs, o.1 < oldest ∧ o.2 = e.1 := by
  induction obs with
  | nil =>
    intro n ts e he hne
    unfold clean_loop at hne
    exact absurd he hne
  | cons o rest ih =>
    intro n ts e he hne
    unfold clean_loop at hne
    split_ifs at hne with h1 h2
    · exact absurd he hne
    · exact absurd he hne
    · have ho : o.1 < oldest := by simpa using h2
      by_cases hmem : e ∈ tsmap_erase ts o.2
      · obtain ⟨o1, ho1, h3, h4⟩ := ih (n - 1) _ e hmem hne
        exact ⟨o1, List.mem_cons_of_mem _ ho1, h3, h4⟩
      · exact ⟨o, List.mem_cons_self _ _, ho,
          (key_eq_of_mem_of_not_mem_tsmap_erase he hmem).symm⟩

theorem clean_loop_length [LinearOrder K] (oldest : Nat) (obs : obsmap_type K) :
    ∀ (n : Int) (ts : tsmap_type K V), 0 ≤ n →
      (ts.length : Int) ≤ (clean_loop oldest obs n ts).length + n := by
  induction obs with
  | nil => intro n ts hn; unfold clean_loop; omega
  | cons o rest ih =>
    intro n ts hn
    unfold clean_loop
    split_ifs with h1 h2
    · omega
    · omega
    · have h3 := ih (n - 1) (tsmap_erase ts o.2) (by omega)
      have h4 := tsmap_erase_length ts o.2
      omega

/-! ### Point reads on a well-formed store -/

/-- The read `at(k) const` returns the newest version of `k` at or below
`_current` when that version is live. -/
theorem at_const_of_newest_live [LinearOrder K] (m : multiversion_map K V)
    (hs : tsmap_sorted m._tsmap) {k : K} {t : Nat} {v : V}
    (he : ((k, t), some v) ∈ m._tsmap) (ht : t ≤ m._current)
    (hmax : ∀ a ∈ m._tsmap, a.1.1 = k → a.1.2 ≤ m._current → a.1.2 ≤ t) :
    at_const m k = .ok v := by
  obtain ⟨rest, hrest⟩ := tsmap_lower_bound_newest hs he rfl ht hmax
  unfold at_const
  rw [hrest]
  simp

/-- The read `at(k) const` throws when the newest version of `k` at or below
`_current` is a tombstone. -/
theorem at_const_of_newest_tombstone [LinearOrder K] (m : multiversion_map K V)
    (hs : tsmap_sorted m._tsmap) {k : K} {t : Nat}
    (he : ((k, t), none) ∈ m._tsmap) (ht : t ≤ m._current)
    (hmax : ∀ a ∈ m._tsmap, a.1.1 = k → a.1.2 ≤ m._current → a.1.2 ≤ t) :
    at_const m k = .error .out_of_range := by
  obtain ⟨rest, hrest⟩ := tsmap_lower_bound_newest hs he rfl ht hmax
  unfold at_const
  rw [hrest]
  simp

/-- Writing through a reference keeps every node's key, hence the order. -/
theorem tsmap_sorted_map_write [LinearOrder K] {m : tsmap_type K V} (hs : tsmap_sorted m)
    (r : mapped_ref K) (v : V) :
    tsmap_sorted (m.map (fun e => if e.1 = r then (e.1, some v) else e)) := by
  unfold tsmap_sorted at *
  refine List.Pairwise.map _ ?_ hs
  intro a b hab
  have ha : (if a.1 = r then (a.1, some v) else a).1 = a.1 := by split_ifs <;> rfl
  have hb : (if b.1 = r then (b.1, some v) else b).1 = b.1 := by split_ifs <;> rfl
  rw [ha, hb]
  exact hab

/-- What `operator[]` does when its probe lands on a live node `e`: the node is
recorded as obsolete and a copy of its value is inserted at `(k, _current)`. -/
theorem operator_index_of_probe_live [LinearOrder K] [Inhabited V] (m : multiversion_map K V)
    (k : K) (hg : has_garbage m = false) {kt : ts_key_type K} {v : V} {rest : tsmap_type K V}
    (hp : tsmap_lower_bound m._tsmap (k, m._current) = (kt, some v) :: rest)
    (hk : ¬ kt.1 < k) :
    operator_index m k
      = ({ m with _obsmap := obsmap_emplace m._obsmap (m._current, kt),
                  _tsmap := tsmap_insert m._tsmap ((k, m._current), some v) },
         (k, m._current)) := by
  unfold operator_index
  rw [clean_of_no_garbage m _ hg]
  simp only [hp]
  simp [hk]

/-- The member `clean` leaves the answer of `has_garbage` as it was. -/
theorem has_garbage_clean [LinearOrder K] (m : multiversion_map K V) (n : Int) :
    has_garbage (clean m n) = has_garbage m := rfl

/-! ## The claims -/

/-- C1 (the code breaks it): `state_erased` is what `m[1] = 1` at `current = 3`
followed by `set_timestamp(0, 5)` and `erase(1)` builds; the newest version of
key `1` at read timestamp `5` is the tombstone `(1, 5)`, and `at(1) const`
throws, yet the iteration from `begin()` to `end()` yields the pair `(1, 1)`. -/
theorem iteration_yields_erased_key :
    (assign (set_timestamp (multiversion_map.empty : multiversion_map Nat Nat) 0 3) 1 1).map
        (fun m => erase (set_timestamp m 0 5) 1) = some state_erased
      ∧ state_erased._tsmap = [((1, 5), none), ((1, 3), some 1)]
      ∧ state_erased._current = 5
      ∧ at_const state_erased 1 = .error .out_of_range
      ∧ dump_map state_erased = some [(1, 1)] := by
  decide

/-- C2 (the code breaks it): `state_overwritten` is reached from the empty map
by `m[1] = 10; m[1] = 20; set_timestamp(1, 1)`; a read of key `1` at timestamp
`1 >= oldest` returns `20` before `clean(-1)` and throws after it. -/
theorem clean_changes_read_above_oldest :
    ((assign (multiversion_map.empty : multiversion_map Nat Nat) 1 10).bind
        (fun m => assign m 1 20)).map (fun m => set_timestamp m 1 1) = some state_overwritten
      ∧ state_overwritten._oldest ≤ state_overwritten._current
      ∧ at_const state_overwritten 1 = .ok 20
      ∧ at_const (clean state_overwritten (-1)) 1 = .error .out_of_range := by
  decide

/-- C3 (the code breaks it): in `state_single`, built by `m[2] = 7`, key `1` has
no version at all, yet `at(1) const` returns `7`, the value of key `2`. -/
theorem at_const_returns_next_key_value :
    assign (multiversion_map.empty : multiversion_map Nat Nat) 2 7 = some state_single
      ∧ (∀ e ∈ state_single._tsmap, e.1.1 ≠ 1)
      ∧ at_const state_single 1 = .ok 7 := by
  decide

/-- C4: copy-forward on write.  In a well-formed state without garbage whose
newest version of key `k` is the live node `(k, T1) = v1`, with
`_current = T2 > T1`, the statement `m[k] = v2` succeeds and leaves both
`(k, T1) = v1` and `(k, T2) = v2` in the version store; `at(k) const` then
returns `v1` at every read timestamp in `[T1, T2)` and `v2` at every read
timestamp from `T2` on. -/
theorem assign_copies_forward [LinearOrder K] [Inhabited V] (m : multiversion_map K V)
    (k : K) (T1 T2 : Nat) (v1 v2 : V)
    (hs : tsmap_sorted m._tsmap) (hg : has_garbage m = false)
    (hlive : ((k, T1), some v1) ∈ m._tsmap)
    (hnewest : ∀ e ∈ m._tsmap, e.1.1 = k → e.1.2 ≤ T1)
    (hcur : m._current = T2) (hlt : T1 < T2) :
    ∃ m2, assign m k v2 = some m2
      ∧ ((k, T1), some v1) ∈ m2._tsmap ∧ ((k, T2), some v2) ∈ m2._tsmap
      ∧ (∀ T, T1 ≤ T → T < T2 → at_const { m2 with _current := T } k = .ok v1)
      ∧ (∀ T, T2 ≤ T → at_const { m2 with _current := T } k = .ok v2) := by
  subst hcur
  obtain ⟨rest, hrest⟩ := tsmap_lower_bound_newest hs hlive rfl (le_of_lt hlt)
    (fun a ha hk _ => hnewest a ha hk)
  have hop := operator_index_of_probe_live m k hg hrest (lt_irrefl k)
  have hnew : ∀ a ∈ m._tsmap, a.1 ≠ (k, m._current) := by
    intro a ha h
    have h1 := hnewest a ha (by rw [h])
    rw [h] at h1
    exact absurd hlt (not_lt_of_le h1)
  have hs1 : tsmap_sorted (tsmap_insert m._tsmap ((k, m._current), some v1)) :=
    tsmap_insert_sorted hs _
  have hv : ((k, m._current), some v1) ∈ tsmap_insert m._tsmap ((k, m._current), some v1) :=
    mem_tsmap_insert_self hnew
  have hfind := tsmap_find_of_mem hs1 hv
  have hkeys : ∀ a ∈ (tsmap_insert m._tsmap ((k, m._current), some v1)).map
      (fun e => if e.1 = (k, m._current) then (e.1, some v2) else e),
      a.1.1 = k → a.1.2 = m._current ∨ a.1.2 ≤ T1 := by
    intro a ha hak
    obtain ⟨b, hb, rfl⟩ := List.mem_map.1 ha
    have hbk : (if b.1 = (k, m._current) then (b.1, some v2) else b).1 = b.1 := by
      split_ifs <;> rfl
    rw [hbk] at hak ⊢
    rcases mem_or_eq_of_mem_tsmap_insert hb with h | h
    · left; rw [h]
    · right; exact hnewest b h hak
  refine ⟨{ m with
      _obsmap := obsmap_emplace m._obsmap (m._current, (k, T1)),
      _tsmap := (tsmap_insert m._tsmap ((k, m._current), some v1)).map
        (fun e => if e.1 = (k, m._current) then (e.1, some v2) else e) }, ?_, ?_, ?_, ?_, ?_⟩
  · unfold assign
    simp only [hop]
    unfold write_ref read_ref
    simp only [hfind]
    rfl
  · refine List.mem_map.2 ⟨((k, T1), some v1), mem_tsmap_insert_of_mem _ hlive, ?_⟩
    have : ¬ (k, T1) = (k, m._current) := by
      intro h
      have := (Prod.mk.inj h).2
      omega
    simp [this]
  · exact List.mem_map.2 ⟨((k, m._current), some v1), hv, by simp⟩
  · intro T h1 h2
    refine at_const_of_newest_live _ (tsmap_sorted_map_write hs1 _ _) ?_ h1 ?_
    · refine List.mem_map.2 ⟨((k, T1), some v1), mem_tsmap_insert_of_mem _ hlive, ?_⟩
      have : ¬ (k, T1) = (k, m._current) := by
        intro h
        have := (Prod.mk.inj h).2
        omega
      simp [this]
    · intro a ha hak haT
      rcases hkeys a ha hak with h | h
      · simp only at haT; omega
      · exact h
  · intro T h1
    refine at_const_of_newest_live _ (tsmap_sorted_map_write hs1 _ _) ?_ h1 ?_
    · exact List.mem_map.2 ⟨((k, m._current), some v1), hv, by simp⟩
    · intro a ha hak _
      rcases hkeys a ha hak with h | h
      · exact le_of_eq h
      · exact le_trans h (le_of_lt hlt)

/-- C4, at a concrete state: `(1, 0) = 10` overwritten by `m[1] = 20` at `current = 4`. -/
theorem assign_copies_forward_witness :
    assign state_old_version 1 20
        = some ⟨0, 4, [((1, 4), some 20), ((1, 0), some 10)], [(4, (1, 0))]⟩
      ∧ ∃ m2, assign state_old_version 1 20 = some m2
        ∧ ((1, 0), some 10) ∈ m2._tsmap ∧ ((1, 4), some 20) ∈ m2._tsmap
        ∧ (∀ T, 0 ≤ T → T < 4 → at_const { m2 with _current := T } 1 = .ok 10)
        ∧ (∀ T, 4 ≤ T → at_const { m2 with _current := T } 1 = .ok 20) :=
  ⟨by decide, assign_copies_forward state_old_version 1 0 4 10 20
    (by unfold tsmap_sorted; decide) (by decide) (by decide) (by decide) (by decide)
    (by decide)⟩

/-- C5 (the code breaks it): in `state_one`, built by `m[1] = 7`, key `1` has a
live version visible at `current = 0`; after `erase(1)` the version store is
unchanged and `at(1) const` still returns `7`. -/
theorem erase_at_same_timestamp_keeps_key :
    assign (multiversion_map.empty : multiversion_map Nat Nat) 1 7 = some state_one
      ∧ at_const state_one 1 = .ok 7
      ∧ (erase state_one 1)._tsmap = state_one._tsmap
      ∧ at_const (erase state_one 1) 1 = .ok 7 := by
  decide

/-- C6 as stated fails: in `state_garbage` no version of key `9` exists (nor of
any greater key), yet `erase(9)` removes the node `(1, 0)` from the version
store, through the `clean(kCleansPerUpdate)` it starts with. -/
theorem erase_absent_key_reclaims_garbage :
    (∀ e ∈ state_garbage._tsmap, e.1.1 < 9)
      ∧ (erase state_garbage 9)._tsmap = [((1, 5), some 2)]
      ∧ (erase state_garbage 9)._tsmap ≠ state_garbage._tsmap := by
  decide

/-- C6, amended: in a well-formed state, when in the version store as the
initial `clean(kCleansPerUpdate)` leaves it either the newest version of `k` at
or below `_current` is a tombstone, or every node is ordered before
`(k, _current)` (no version of `k` at or below `_current` and no greater key),
`erase(k)` does what that `clean` does and nothing more; without garbage it
leaves the version store and the obsolete index unchanged. -/
theorem erase_without_visible_version [LinearOrder K] (m : multiversion_map K V) (k : K)
    (hs : tsmap_sorted m._tsmap)
    (h : (∃ t, t ≤ m._current ∧ ((k, t), none) ∈ (clean m kCleansPerUpdate)._tsmap
            ∧ ∀ e ∈ (clean m kCleansPerUpdate)._tsmap,
                e.1.1 = k → e.1.2 ≤ m._current → e.1.2 ≤ t)
         ∨ (∀ e ∈ (clean m kCleansPerUpdate)._tsmap,
              e.1.1 < k ∨ (e.1.1 = k ∧ m._current < e.1.2))) :
    erase m k = clean m kCleansPerUpdate ∧ (has_garbage m = false → erase m k = m) := by
  have hs1 : tsmap_sorted (clean m kCleansPerUpdate)._tsmap :=
    tsmap_sorted_of_sublist (clean_loop_sublist _ _ _ _) hs
  have h1 : erase m k = clean m kCleansPerUpdate := by
    unfold erase
    rcases h with ⟨t, ht, hmem, hmax⟩ | hall
    · obtain ⟨rest, hrest⟩ := tsmap_lower_bound_newest hs1 hmem rfl ht hmax
      have hrest1 : tsmap_lower_bound (clean m kCleansPerUpdate)._tsmap
          (k, (clean m kCleansPerUpdate)._current) = ((k, t), none) :: rest := hrest
      simp only [hrest1]
      simp
    · have hnil : tsmap_lower_bound (clean m kCleansPerUpdate)._tsmap
          (k, (clean m kCleansPerUpdate)._current) = [] := tsmap_lower_bound_nil hall
      simp only [hnil]
  exact ⟨h1, fun hg => by rw [h1, clean_of_no_garbage m _ hg]⟩

/-- C6, amended, at a concrete state: key `1` of `state_tombstone` is erased again. -/
theorem erase_without_visible_version_witness :
    erase state_tombstone 1 = clean state_tombstone kCleansPerUpdate
      ∧ (has_garbage state_tombstone = false → erase state_tombstone 1 = state_tombstone) :=
  erase_without_visible_version state_tombstone 1 (by unfold tsmap_sorted; decide)
    (Or.inl ⟨5, by decide, by decide, by decide⟩)

/-- C7 (the code breaks it): `state_garbage` has garbage; `clean(-1)` erases the
obsolete version `(1, 0)` from the version store but leaves the obsolete index
as it was, so `has_garbage()` is still true afterwards. -/
theorem clean_unbounded_keeps_has_garbage :
    has_garbage state_garbage = true
      ∧ clean state_garbage (-1) = ⟨6, 10, [((1, 5), some 2)], [(5, (1, 0))]⟩
      ∧ has_garbage (clean state_garbage (-1)) = true := by
  decide

/-- C8: `clean(n)` only deletes nodes of the version store (what is left is a
sublist of what was there, so every surviving node keeps key, timestamp and
value); every node it deletes is named by a node of the obsolete index whose
timestamp is below `_oldest`; and for `n >= 0` it deletes at most `n` nodes. -/
theorem clean_removes_only_eligible [LinearOrder K] (m : multiversion_map K V) (n : Int) :
    (clean m n)._tsmap.Sublist m._tsmap
      ∧ (∀ e ∈ m._tsmap, e ∉ (clean m n)._tsmap →
          ∃ o ∈ m._obsmap, o.1 < m._oldest ∧ o.2 = e.1)
      ∧ (0 ≤ n → (m._tsmap.length : Int) - (clean m n)._tsmap.length ≤ n) := by
  refine ⟨clean_loop_sublist _ _ _ _, ?_, ?_⟩
  · intro e he hne
    exact clean_loop_removed m._oldest m._obsmap n m._tsmap e he hne
  · intro hn
    have := clean_loop_length m._oldest m._obsmap n m._tsmap hn
    unfold clean
    simp only
    omega

/-- C8, at a concrete state: `clean(1)` on `state_garbage` deletes `(1, 0)`. -/
theorem clean_removes_only_eligible_witness :
    ((1, 0), some 1) ∈ state_garbage._tsmap
      ∧ ((1, 0), some 1) ∉ (clean state_garbage 1)._tsmap
      ∧ (∃ o ∈ state_garbage._obsmap, o.1 < state_garbage._oldest ∧ o.2 = (1, 0))
      ∧ (state_garbage._tsmap.length : Int) - (clean state_garbage 1)._tsmap.length ≤ 1 :=
  ⟨by decide, by decide,
    (clean_removes_only_eligible state_garbage 1).2.1 ((1, 0), some 1) (by decide) (by decide),
    (clean_removes_only_eligible state_garbage 1).2.2 (by decide)⟩

/-- C9 (the code breaks it): under the initial window `oldest = current = 0`,
after `m[1] = 7; m.erase(1)` the multiversion map still returns `7` from
`at(1) const` and yields `(1, 7)` when iterated, while an unversioned
`std::map` throws and yields nothing; and after `m[2] = 7` alone, `at(1) const`
returns `7` where the `std::map` throws. -/
theorem single_timestamp_differs_from_std_map :
    run_mvmap [.assign 1 7, .erase 1] (multiversion_map.empty : multiversion_map Nat Nat)
        = some state_one_erased
      ∧ at_const state_one_erased 1 = .ok 7
      ∧ dump_map state_one_erased = some [(1, 7)]
      ∧ std_map_at (run_std_map [.assign 1 7, .erase 1] ([] : std_map Nat Nat)) 1
          = .error .out_of_range
      ∧ std_map_dump (run_std_map [.assign 1 7, .erase 1] ([] : std_map Nat Nat)) = []
      ∧ run_mvmap [.assign 2 7] (multiversion_map.empty : multiversion_map Nat Nat)
          = some state_single
      ∧ at_const state_single 1 = .ok 7
      ∧ std_map_at (run_std_map [.assign 2 7] ([] : std_map Nat Nat)) 1
          = .error .out_of_range := by
  decide

/-- C10 (the code breaks it): `state_single` has no garbage and no version of
key `1`, yet `operator[](1)` inserts `(1, 0)` holding `7`, the value of key `2`,
not the default `0`, and records `(0, (2, 0))` in the obsolete index; and in
`state_tombstone`, where the newest version of key `1` is a tombstone stamped
`_current`, `operator[](1)` inserts nothing and returns a reference into the
tombstone. -/
theorem operator_index_absent_key_copies_next_key :
    has_garbage state_single = false
      ∧ (∀ e ∈ state_single._tsmap, e.1.1 ≠ 1)
      ∧ operator_index state_single 1
          = (⟨0, 0, [((1, 0), some 7), ((2, 0), some 7)], [(0, (2, 0))]⟩, (1, 0))
      ∧ read_ref (operator_index state_single 1).1 (operator_index state_single 1).2 = some 7
      ∧ (default : Nat) = 0
      ∧ has_garbage state_tombstone = false
      ∧ operator_index state_tombstone 1 = (state_tombstone, (1, 5))
      ∧ read_ref (operator_index state_tombstone 1).1 (operator_index state_tombstone 1).2
          = none := by
  decide

/-! ### Helper facts for the mutable `at`, the probe and the comparator -/

theorem obsmap_emplace_perm (obs : obsmap_type K) (v : Nat × (K × Nat)) :
    (obsmap_emplace obs v).Perm (v :: obs) := by
  induction obs with
  | nil => unfold obsmap_emplace; exact List.Perm.refl _
  | cons o rest ih =>
    unfold obsmap_emplace
    split_ifs with h
    · exact List.Perm.refl _
    · exact (List.Perm.cons o ih).trans (List.Perm.swap v o rest)

/-- Inserting a node whose key is new adds that node and moves no other. -/
theorem tsmap_insert_perm [LinearOrder K] {m : tsmap_type K V} {v : ts_value_type K V}
    (hnew : ∀ a ∈ m, a.1 ≠ v.1) : (tsmap_insert m v).Perm (v :: m) := by
  induction m with
  | nil => unfold tsmap_insert; exact List.Perm.refl _
  | cons c l ih =>
    unfold tsmap_insert
    split_ifs with h1 h2
    · exact List.Perm.refl _
    · exact (List.Perm.cons c (ih (fun a ha => hnew a (List.mem_cons_of_mem _ ha)))).trans
        (List.Perm.swap v c l)
    · exfalso
      have : (!keyts_compare c.1 v.1 && !keyts_compare v.1 c.1) = true := by
        simp only [Bool.and_eq_true, Bool.not_eq_true']
        exact ⟨by simpa using h2, by simpa using h1⟩
      exact hnew c (List.mem_cons_self _ _) ((keyts_equiv_iff _ _).1 this)

/-- What the mutable `at` does when its probe lands on a live node. -/
theorem at_mut_of_probe_live [LinearOrder K] (m : multiversion_map K V)
    (k : K) (hg : has_garbage m = false) {kt : ts_key_type K} {v : V} {rest : tsmap_type K V}
    (hp : tsmap_lower_bound m._tsmap (k, m._current) = (kt, some v) :: rest)
    (hk : ¬ kt.1 < k) :
    at_mut m k
      = .ok ({ m with _obsmap := obsmap_emplace m._obsmap (m._current, kt),
                      _tsmap := tsmap_insert m._tsmap ((k, m._current), some v) },
             (k, m._current)) := by
  unfold at_mut
  rw [clean_of_no_garbage m _ hg]
  simp only [hp]
  simp [hk]

/-- Among the versions of `k` stamped at most `T`, when there is one, one is newest. -/
theorem exists_newest_version (m : tsmap_type K V) (k : K) (T : Nat)
    (h : ∃ e ∈ m, e.1.1 = k ∧ e.1.2 ≤ T) :
    ∃ e ∈ m, e.1.1 = k ∧ e.1.2 ≤ T ∧ ∀ a ∈ m, a.1.1 = k → a.1.2 ≤ T → a.1.2 ≤ e.1.2 := by
  induction m with
  | nil => obtain ⟨e, he, _⟩ := h; cases he
  | cons c l ih =>
    by_cases hl : ∃ e ∈ l, e.1.1 = k ∧ e.1.2 ≤ T
    · obtain ⟨e, he, hk, hT, hmax⟩ := ih hl
      by_cases hc : c.1.1 = k ∧ c.1.2 ≤ T ∧ e.1.2 < c.1.2
      · refine ⟨c, List.mem_cons_self _ _, hc.1, hc.2.1, ?_⟩
        intro a ha hak haT
        rcases List.mem_cons.1 ha with h1 | h1
        · rw [h1]
        · exact le_trans (hmax a h1 hak haT) (le_of_lt hc.2.2)
      · refine ⟨e, List.mem_cons_of_mem _ he, hk, hT, ?_⟩
        intro a ha hak haT
        rcases List.mem_cons.1 ha with h1 | h1
        · rw [h1] at hak haT ⊢
          by_contra hlt
          exact hc ⟨hak, haT, lt_of_not_le hlt⟩
        · exact hmax a h1 hak haT
    · obtain ⟨e, he, hk, hT⟩ := h
      rcases List.mem_cons.1 he with h1 | h1
      · refine ⟨c, List.mem_cons_self _ _, h1 ▸ hk, h1 ▸ hT, ?_⟩
        intro a ha hak haT
        rcases List.mem_cons.1 ha with h2 | h2
        · rw [h2]
        · exact absurd ⟨a, h2, hak, haT⟩ hl
      · exact absurd ⟨e, h1, hk, hT⟩ hl

/-- The head of the probe's result is never ordered before the probed key. -/
theorem tsmap_lower_bound_head [LinearOrder K] {m : tsmap_type K V} {x : ts_key_type K}
    {e : ts_value_type K V} {rest : tsmap_type K V}
    (h : tsmap_lower_bound m x = e :: rest) : e ∈ m ∧ keyts_compare e.1 x = false := by
  induction m with
  | nil => unfold tsmap_lower_bound at h; simp at h
  | cons c l ih =>
    rw [tsmap_lower_bound_cons] at h
    split_ifs at h with hc
    · exact ⟨List.mem_cons_of_mem _ (ih h).1, (ih h).2⟩
    · have hce : c = e := (List.cons.inj h).1
      subst hce
      exact ⟨List.mem_cons_self _ _, by simpa using hc⟩

/-- Raising the read timestamp moves the probe towards the front: the probe at
`(k, T)` is the probe at `(k, T)` of what the probe at `(k, T1)` returns. -/
theorem tsmap_lower_bound_mono [LinearOrder K] (m : tsmap_type K V) (k : K) {T T1 : Nat}
    (hT : T ≤ T1) :
    tsmap_lower_bound (tsmap_lower_bound m (k, T1)) (k, T) = tsmap_lower_bound m (k, T) := by
  induction m with
  | nil => rfl
  | cons c l ih =>
    rw [tsmap_lower_bound_cons c l (k, T1)]
    split_ifs with h1
    · have h2 : keyts_compare c.1 (k, T) = true := by
        rw [keyts_compare_iff] at h1 ⊢
        rcases h1 with h | ⟨h3, h4⟩
        · exact Or.inl h
        · exact Or.inr ⟨h3, lt_of_le_of_lt hT h4⟩
      rw [tsmap_lower_bound_cons c l (k, T), if_pos h2]
      exact ih
    · rfl

/-- The read `at(k) const` succeeds exactly when the probe lands on a live node
whose key is not below `k`. -/
theorem at_const_ok_iff [LinearOrder K] (m : multiversion_map K V) (k : K) (v : V) :
    at_const m k = .ok v ↔
      ∃ e rest, tsmap_lower_bound m._tsmap (k, m._current) = e :: rest
        ∧ ¬ e.1.1 < k ∧ e.2 = some v := by
  unfold at_const
  cases hp : tsmap_lower_bound m._tsmap (k, m._current) with
  | nil => simp
  | cons e rest =>
    by_cases hk : e.1.1 < k
    · simp [hk]
    · cases he : e.2 with
      | none => simp [hk, he]
      | some w =>
        simp only [hk, decide_False, Bool.false_eq_true, if_false, he]
        constructor
        · intro h
          have hw : w = v := by injection h
          exact ⟨e, rest, rfl, hk, by rw [he, hw]⟩
        · rintro ⟨e1, rest1, h1, _, h3⟩
          have he1 : e = e1 := (List.cons.inj h1).1
          rw [← he1, he] at h3
          have hw : w = v := by injection h3
          rw [hw]

/-! ## The claims, continued -/

/-- C11: the mutable `at` advances history.  In a well-formed state without
garbage whose newest version of `k` at or below `_current` is the live node
`(k, t) = v` with `t < _current`, the mutable `at(k)` succeeds, its reference
reads `v`, the version store gains exactly the node `(k, _current) = v` (every
other node, `(k, t) = v` included, is kept), and the obsolete index gains
exactly the node `(_current, (k, t))`. -/
theorem at_mut_advances_history [LinearOrder K] (m : multiversion_map K V) (k : K)
    (t : Nat) (v : V)
    (hs : tsmap_sorted m._tsmap) (hg : has_garbage m = false)
    (hlive : ((k, t), some v) ∈ m._tsmap) (ht : t < m._current)
    (hnewest : ∀ e ∈ m._tsmap, e.1.1 = k → e.1.2 ≤ m._current → e.1.2 ≤ t) :
    ∃ m1 r, at_mut m k = .ok (m1, r)
      ∧ read_ref m1 r = some v
      ∧ ((k, m._current), some v) ∈ m1._tsmap
      ∧ ((k, t), some v) ∈ m1._tsmap
      ∧ m1._tsmap.Perm (((k, m._current), some v) :: m._tsmap)
      ∧ m1._obsmap.Perm ((m._current, (k, t)) :: m._obsmap)
      ∧ m1._oldest = m._oldest ∧ m1._current = m._current := by
  obtain ⟨rest, hrest⟩ := tsmap_lower_bound_newest hs hlive rfl (le_of_lt ht) hnewest
  have hop := at_mut_of_probe_live m k hg hrest (lt_irrefl k)
  have hnew : ∀ a ∈ m._tsmap, a.1 ≠ (k, m._current) := by
    intro a ha h
    have h1 := hnewest a ha (by rw [h]) (by rw [h])
    rw [h] at h1
    exact absurd ht (not_lt_of_le h1)
  have hs1 : tsmap_sorted (tsmap_insert m._tsmap ((k, m._current), some v)) :=
    tsmap_insert_sorted hs _
  have hv : ((k, m._current), some v) ∈ tsmap_insert m._tsmap ((k, m._current), some v) :=
    mem_tsmap_insert_self hnew
  have hfind := tsmap_find_of_mem hs1 hv
  refine ⟨_, _, hop, ?_, hv, mem_tsmap_insert_of_mem _ hlive, tsmap_insert_perm hnew,
    obsmap_emplace_perm _ _, rfl, rfl⟩
  unfold read_ref
  simp only [hfind]
  rfl

/-- C11, at a concrete state: the mutable `at(1)` on `(1, 0) = 10` at `current = 4`. -/
theorem at_mut_advances_history_witness :
    at_mut state_old_version 1
        = .ok (⟨0, 4, [((1, 4), some 10), ((1, 0), some 10)], [(4, (1, 0))]⟩, (1, 4))
      ∧ ∃ m1 r, at_mut state_old_version 1 = .ok (m1, r)
        ∧ read_ref m1 r = some 10
        ∧ ((1, state_old_version._current), some 10) ∈ m1._tsmap
        ∧ ((1, 0), some 10) ∈ m1._tsmap
        ∧ m1._tsmap.Perm (((1, state_old_version._current), some 10)
            :: state_old_version._tsmap)
        ∧ m1._obsmap.Perm ((state_old_version._current, (1, 0)) :: state_old_version._obsmap)
        ∧ m1._oldest = state_old_version._oldest
        ∧ m1._current = state_old_version._current :=
  ⟨by decide, at_mut_advances_history state_old_version 1 0 10
    (by unfold tsmap_sorted; decide) (by decide) (by decide) (by decide) (by decide)⟩

/-- C12: monotonic visibility.  When `at(k) const` succeeds at read timestamp
`T`, and the store holds no tombstone of `k` stamped in `(T, T1]`, then
`at(k) const` succeeds at every read timestamp `T1 >= T`. -/
theorem read_monotone_without_tombstone [LinearOrder K] (m : multiversion_map K V) (k : K)
    (T T1 : Nat) (hT : T ≤ T1)
    (hread : ∃ v, at_const { m with _current := T } k = .ok v)
    (hno : ∀ t, T < t → t ≤ T1 → ((k, t), none) ∉ m._tsmap) :
    ∃ v1, at_const { m with _current := T1 } k = .ok v1 := by
  obtain ⟨v, hv⟩ := hread
  obtain ⟨e, rest, hp, hk, he⟩ := (at_const_ok_iff _ k v).1 hv
  simp only at hp
  have hmono := tsmap_lower_bound_mono m._tsmap k hT
  cases hp1 : tsmap_lower_bound m._tsmap (k, T1) with
  | nil =>
    rw [hp1] at hmono
    rw [← hmono] at hp
    unfold tsmap_lower_bound at hp
    simp at hp
  | cons e1 rest1 =>
    obtain ⟨hmem, hcmp⟩ := tsmap_lower_bound_head hp1
    have hn1 : ¬ (e1.1.1 < k ∨ (e1.1.1 = k ∧ T1 < e1.1.2)) := by
      intro hh
      rw [(keyts_compare_iff e1.1 (k, T1)).2 hh] at hcmp
      exact Bool.noConfusion hcmp
    push_neg at hn1
    cases hval : e1.2 with
    | some w =>
      exact ⟨w, (at_const_ok_iff _ k w).2 ⟨e1, rest1, hp1, not_lt_of_le hn1.1, hval⟩⟩
    | none =>
      exfalso
      rw [hp1, tsmap_lower_bound_cons] at hmono
      by_cases hc : keyts_compare e1.1 (k, T) = true
      · rcases (keyts_compare_iff e1.1 (k, T)).1 hc with h | ⟨h1, h2⟩
        · exact absurd h (not_lt_of_le hn1.1)
        · have hle := hn1.2 h1
          have hin : ((k, e1.1.2), (none : Option V)) ∈ m._tsmap := by
            have hk1 : e1.1.1 = k := h1
            have : e1 = ((k, e1.1.2), none) := Prod.ext (Prod.ext hk1 rfl) hval
            rw [← this]
            exact hmem
          exact hno e1.1.2 h2 hle hin
      · rw [if_neg hc, hp] at hmono
        have hee : e1 = e := (List.cons.inj hmono).1
        rw [← hee, hval] at he
        exact Option.noConfusion he

/-- C12, at a concrete state: key `1` of `state_old_version` read at `0` and at `4`. -/
theorem read_monotone_without_tombstone_witness :
    (∃ v, at_const { state_old_version with _current := 0 } 1 = .ok v)
      ∧ ∃ v1, at_const { state_old_version with _current := 4 } 1 = .ok v1 :=
  ⟨⟨10, by decide⟩,
    read_monotone_without_tombstone state_old_version 1 0 4 (by decide) ⟨10, by decide⟩
      (by intro t _ _ h; simp [state_old_version] at h)⟩

/-- C13: the lower-bound probe finds the visible version.  On a well-formed
store, when key `k` has a version stamped at most `T`, the probe
`lower_bound((k, T))` lands on the version of `k` with the largest such
timestamp; when it has none, the probe is at `end()` or on a node whose key is
strictly greater than `k`. -/
theorem lower_bound_probe_finds_visible_version [LinearOrder K] (m : tsmap_type K V)
    (hs : tsmap_sorted m) (k : K) (T : Nat) :
    ((∃ e ∈ m, e.1.1 = k ∧ e.1.2 ≤ T) →
        ∃ e rest, tsmap_lower_bound m (k, T) = e :: rest ∧ e ∈ m ∧ e.1.1 = k ∧ e.1.2 ≤ T
          ∧ ∀ a ∈ m, a.1.1 = k → a.1.2 ≤ T → a.1.2 ≤ e.1.2)
      ∧ ((¬ ∃ e ∈ m, e.1.1 = k ∧ e.1.2 ≤ T) →
          tsmap_lower_bound m (k, T) = [] ∨
            ∃ e rest, tsmap_lower_bound m (k, T) = e :: rest ∧ k < e.1.1) := by
  constructor
  · intro h
    obtain ⟨e, he, hk, hT, hmax⟩ := exists_newest_version m k T h
    obtain ⟨rest, hrest⟩ := tsmap_lower_bound_newest hs he hk hT hmax
    exact ⟨e, rest, hrest, he, hk, hT, hmax⟩
  · intro h
    cases hp : tsmap_lower_bound m (k, T) with
    | nil => exact Or.inl rfl
    | cons e rest =>
      right
      obtain ⟨hmem, hcmp⟩ := tsmap_lower_bound_head hp
      have hn : ¬ (e.1.1 < k ∨ (e.1.1 = k ∧ T < e.1.2)) := by
        intro hh
        rw [(keyts_compare_iff e.1 (k, T)).2 hh] at hcmp
        exact Bool.noConfusion hcmp
      push_neg at hn
      refine ⟨e, rest, rfl, ?_⟩
      rcases lt_or_eq_of_le hn.1 with h1 | h1
      · exact h1
      · exact absurd ⟨e, hmem, h1.symm, hn.2 h1.symm⟩ h

/-- C13, at a concrete store: the versions of key `1` in `state_three_obsolete`
probed at timestamp `5`, and key `0`, which has none. -/
theorem lower_bound_probe_finds_visible_version_witness :
    (∃ e rest, tsmap_lower_bound state_three_obsolete._tsmap (1, 5) = e :: rest
        ∧ e ∈ state_three_obsolete._tsmap ∧ e.1.1 = 1 ∧ e.1.2 ≤ 5
        ∧ ∀ a ∈ state_three_obsolete._tsmap, a.1.1 = 1 → a.1.2 ≤ 5 → a.1.2 ≤ e.1.2)
      ∧ (tsmap_lower_bound state_three_obsolete._tsmap (0, 5) = [] ∨
          ∃ e rest, tsmap_lower_bound state_three_obsolete._tsmap (0, 5) = e :: rest
            ∧ 0 < e.1.1)
      ∧ tsmap_lower_bound state_three_obsolete._tsmap (1, 5)
          = [((1, 4), some 4), ((1, 0), some 1), ((2, 5), some 5), ((2, 0), some 2),
             ((3, 6), some 6), ((3, 0), some 3)] :=
  ⟨(lower_bound_probe_finds_visible_version state_three_obsolete._tsmap
      (by unfold tsmap_sorted; decide) 1 5).1 ⟨((1, 0), some 1), by decide, by decide, by decide⟩,
    (lower_bound_probe_finds_visible_version state_three_obsolete._tsmap
      (by unfold tsmap_sorted; decide) 0 5).2 (by decide),
    by decide⟩

/-- C14: the comparator is a strict total order.  For a linearly ordered key
type, `keyts_compare` is irreflexive and transitive, of two distinct
(key, timestamp) pairs exactly one precedes the other, and `(k1, t1)` precedes
`(k2, t2)` exactly when `k1 < k2`, or `k1 = k2` and `t1 > t2`. -/
theorem keyts_compare_strict_total_order [LinearOrder K] :
    (∀ x : ts_key_type K, keyts_compare x x = false)
      ∧ (∀ x y z : ts_key_type K,
          keyts_compare x y = true → keyts_compare y z = true → keyts_compare x z = true)
      ∧ (∀ x y : ts_key_type K, x ≠ y →
          (keyts_compare x y = true ∧ keyts_compare y x = false)
            ∨ (keyts_compare x y = false ∧ keyts_compare y x = true))
      ∧ (∀ (k1 k2 : K) (t1 t2 : Nat),
          keyts_compare (k1, t1) (k2, t2) = true ↔ k1 < k2 ∨ (k1 = k2 ∧ t1 > t2)) := by
  refine ⟨keyts_compare_irrefl, fun x y z h1 h2 => keyts_compare_trans h1 h2, ?_, ?_⟩
  · intro x y hne
    cases hxy : keyts_compare x y with
    | true => exact Or.inl ⟨rfl, keyts_compare_asymm hxy⟩
    | false =>
      right
      refine ⟨rfl, ?_⟩
      cases hyx : keyts_compare y x with
      | true => rfl
      | false =>
        exfalso
        apply hne
        apply (keyts_equiv_iff x y).1
        rw [hxy, hyx]
        rfl
  · intro k1 k2 t1 t2
    exact keyts_compare_iff (k1, t1) (k2, t2)

/-- C14, at concrete pairs of natural-number keys and timestamps. -/
theorem keyts_compare_strict_total_order_witness :
    keyts_compare ((1, 5) : ts_key_type Nat) (2, 9) = true
      ∧ ((keyts_compare ((1, 5) : ts_key_type Nat) (1, 3) = true
            ∧ keyts_compare ((1, 3) : ts_key_type Nat) (1, 5) = false)
          ∨ (keyts_compare ((1, 5) : ts_key_type Nat) (1, 3) = false
            ∧ keyts_compare ((1, 3) : ts_key_type Nat) (1, 5) = true)) :=
  ⟨(@keyts_compare_strict_total_order Nat _).2.1 (1, 5) (1, 3) (2, 9) (by decide) (by decide),
    (@keyts_compare_strict_total_order Nat _).2.2.1 (1, 5) (1, 3) (by decide)⟩

/-! ### The loop of `next` -/

theorem next_loop_cons_invisible [LinearOrder K] {T : Nat} (ck : Option K)
    {e : ts_value_type K V} (rest : tsmap_type K V) (h : T < e.1.2) :
    next_loop T ck (e :: rest) = next_loop T ck rest := by
  cases ck <;> simp [next_loop, h]

theorem next_loop_cons_tombstone [LinearOrder K] {T : Nat} (ck : Option K)
    {e : ts_value_type K V} (rest : tsmap_type K V) (h : ¬ T < e.1.2) (he : e.2 = none) :
    next_loop T ck (e :: rest) = next_loop T (some e.1.1) rest := by
  cases ck <;> simp [next_loop, h, he]

theorem next_loop_cons_live_none [LinearOrder K] {T : Nat}
    {e : ts_value_type K V} (rest : tsmap_type K V) {v : V} (h : ¬ T < e.1.2)
    (he : e.2 = some v) :
    next_loop T none (e :: rest) = e :: rest := by
  simp [next_loop, h, he]

theorem next_loop_cons_live_some [LinearOrder K] {T : Nat} (c : K)
    {e : ts_value_type K V} (rest : tsmap_type K V) {v : V} (h : ¬ T < e.1.2)
    (he : e.2 = some v) :
    next_loop T (some c) (e :: rest)
      = if e.1.1 ≠ c then e :: rest else next_loop T (some c) rest := by
  simp [next_loop, h, he]

/-- The loop of `next` stops at `end()` or on a live node visible at `T`. -/
theorem next_loop_readable [LinearOrder K] (T : Nat) (l : tsmap_type K V) :
    ∀ ck : Option K, next_loop T ck l = [] ∨
      ∃ e rest v, next_loop T ck l = e :: rest ∧ e.2 = some v ∧ e.1.2 ≤ T := by
  induction l with
  | nil => intro ck; left; cases ck <;> rfl
  | cons e rest ih =>
    intro ck
    by_cases h : T < e.1.2
    · rw [next_loop_cons_invisible ck rest h]; exact ih ck
    · cases he : e.2 with
      | none => rw [next_loop_cons_tombstone ck rest h he]; exact ih _
      | some v =>
        cases ck with
        | none =>
          rw [next_loop_cons_live_none rest h he]
          exact Or.inr ⟨e, rest, v, rfl, he, not_lt.1 h⟩
        | some c =>
          rw [next_loop_cons_live_some c rest h he]
          split_ifs with hk
          · exact Or.inr ⟨e, rest, v, rfl, he, not_lt.1 h⟩
          · exact ih _

/-- The loop of `next` only moves the cursor forward. -/
theorem next_loop_suffix [LinearOrder K] (T : Nat) (l : tsmap_type K V) :
    ∀ ck : Option K, (next_loop T ck l).IsSuffix l := by
  induction l with
  | nil => intro ck; cases ck <;> exact List.suffix_refl _
  | cons e rest ih =>
    intro ck
    by_cases h : T < e.1.2
    · rw [next_loop_cons_invisible ck rest h]
      exact (ih ck).trans (List.suffix_cons _ _)
    · cases he : e.2 with
      | none =>
        rw [next_loop_cons_tombstone ck rest h he]
        exact (ih _).trans (List.suffix_cons _ _)
      | some v =>
        cases ck with
        | none => rw [next_loop_cons_live_none rest h he]
        | some c =>
          rw [next_loop_cons_live_some c rest h he]
          split_ifs with hk
          · exact List.suffix_refl _
          · exact (ih _).trans (List.suffix_cons _ _)

/-- In a well-formed store the keys never decrease along the list. -/
theorem tsmap_sorted_key_le [LinearOrder K] {e : ts_value_type K V} {rest : tsmap_type K V}
    (hs : tsmap_sorted (e :: rest)) : ∀ x ∈ rest, e.1.1 ≤ x.1.1 := by
  intro x hx
  rcases (keyts_compare_iff _ _).1 ((tsmap_sorted_cons.1 hs).1 x hx) with h | ⟨h, _⟩
  · exact le_of_lt h
  · exact le_of_eq h

/-- Started with the key `c` of the node just yielded, the loop of `next` leaves
the cursor where only strictly greater keys remain. -/
theorem next_loop_key_gt [LinearOrder K] (T : Nat) (l : tsmap_type K V) :
    ∀ c : K, tsmap_sorted l → (∀ x ∈ l, c ≤ x.1.1) →
      ∀ x ∈ next_loop T (some c) l, c < x.1.1 := by
  induction l with
  | nil => intro c _ _ x hx; simp [next_loop] at hx
  | cons e rest ih =>
    intro c hs hc x hx
    have hs1 := (tsmap_sorted_cons.1 hs).2
    have hc1 : ∀ y ∈ rest, c ≤ y.1.1 := fun y hy => hc y (List.mem_cons_of_mem _ hy)
    by_cases h : T < e.1.2
    · rw [next_loop_cons_invisible _ rest h] at hx
      exact ih c hs1 hc1 x hx
    · cases he : e.2 with
      | none =>
        rw [next_loop_cons_tombstone _ rest h he] at hx
        exact lt_of_le_of_lt (hc e (List.mem_cons_self _ _))
          (ih e.1.1 hs1 (tsmap_sorted_key_le hs) x hx)
      | some v =>
        rw [next_loop_cons_live_some c rest h he] at hx
        split_ifs at hx with hk
        · have hce : c < e.1.1 :=
            lt_of_le_of_ne (hc e (List.mem_cons_self _ _)) (fun hh => hk hh.symm)
          rcases List.mem_cons.1 hx with h1 | h1
          · rw [h1]; exact hce
          · exact lt_of_lt_of_le hce (tsmap_sorted_key_le hs x h1)
        · exact ih c hs1 hc1 x hx

/-- The constructor leaves the cursor at `end()` or on a live node visible at
the read timestamp, and never moves it backwards. -/
theorem mk1_readable [LinearOrder K] (T : Nat) (pos : tsmap_type K V) :
    (const_multiversion_iterator.mk1 T pos)._timestamp = T
      ∧ (const_multiversion_iterator.mk1 T pos)._tsiter.IsSuffix pos
      ∧ ((const_multiversion_iterator.mk1 T pos)._tsiter = [] ∨
          ∃ e rest v, (const_multiversion_iterator.mk1 T pos)._tsiter = e :: rest
            ∧ e.2 = some v ∧ e.1.2 ≤ T) := by
  cases pos with
  | nil => exact ⟨rfl, List.suffix_refl _, Or.inl rfl⟩
  | cons e rest =>
    unfold const_multiversion_iterator.mk1
    simp only
    split_ifs with h
    · exact ⟨rfl, (next_loop_suffix T rest none).trans (List.suffix_cons _ _),
        next_loop_readable T rest none⟩
    · refine ⟨rfl, List.suffix_refl _, Or.inr ?_⟩
      simp only [Bool.or_eq_true, decide_eq_true_eq, Option.isNone_iff_eq_none, not_or] at h
      obtain ⟨v, hv⟩ := Option.ne_none_iff_exists'.1 h.2
      exact ⟨e, rest, v, rfl, hv, not_lt.1 h.1⟩

/-- With enough fuel the loop of `dump_map`, started on a readable cursor into a
well-formed store, ends and yields pairs with strictly increasing keys, each
the key of a node at or after the cursor. -/
theorem dump_loop_increasing [LinearOrder K] :
    ∀ (fuel : Nat) (i : const_multiversion_iterator K V), tsmap_sorted i._tsiter →
      (i._tsiter = [] ∨ ∃ e rest v, i._tsiter = e :: rest ∧ e.2 = some v
        ∧ e.1.2 ≤ i._timestamp) →
      i._tsiter.length < fuel →
      ∃ l, dump_loop fuel i = some l ∧ l.Pairwise (fun p q => p.1 < q.1)
        ∧ ∀ p ∈ l, ∃ e ∈ i._tsiter, e.1.1 = p.1 := by
  intro fuel
  induction fuel with
  | zero => intro i _ _ h; exact absurd h (Nat.not_lt_zero _)
  | succ n ih =>
    intro i hs hr hlen
    obtain ⟨T, pos⟩ := i
    cases pos with
    | nil => exact ⟨[], rfl, List.Pairwise.nil, by intro p hp; cases hp⟩
    | cons e rest =>
      simp only at hs hr hlen
      rcases hr with h | ⟨e1, rest1, v, h1, hv, _⟩
      · cases h
      · obtain ⟨he, _⟩ := List.cons.inj h1
        subst he
        have hsuf := next_loop_suffix T rest (some e.1.1)
        have hs1 : tsmap_sorted (next_loop T (some e.1.1) rest) :=
          tsmap_sorted_of_sublist hsuf.sublist (tsmap_sorted_cons.1 hs).2
        have hlen1 : (next_loop T (some e.1.1) rest).length < n := by
          have := hsuf.length_le
          simp only [List.length_cons] at hlen
          omega
        obtain ⟨l, hl, hpw, hkeys⟩ :=
          ih ⟨T, next_loop T (some e.1.1) rest⟩ hs1 (next_loop_readable T rest _) hlen1
        refine ⟨(e.1.1, v) :: l, ?_, ?_, ?_⟩
        · simp [dump_loop, deref, incr, next, hv, hl]
        · refine List.Pairwise.cons ?_ hpw
          intro p hp
          obtain ⟨x, hx, hxk⟩ := hkeys p hp
          rw [← hxk]
          exact next_loop_key_gt T rest e.1.1 (tsmap_sorted_cons.1 hs).2
            (tsmap_sorted_key_le hs) x hx
        · intro p hp
          rcases List.mem_cons.1 hp with h2 | h2
          · exact ⟨e, List.mem_cons_self _ _, by rw [h2]⟩
          · obtain ⟨x, hx, hxk⟩ := hkeys p h2
            exact ⟨x, List.mem_cons_of_mem _ (hsuf.subset hx), hxk⟩

/-- C15 (the code breaks it): `state_history` and `state_history_erased` have no
garbage and `_current = 5`.  In `state_history` the read `at(1) const` at
timestamp `0` returns `7` before `m[2] = 9`, `9` after it, and throws after
`erase(2)`.  In `state_history_erased` the iteration at timestamp `1` yields
`(2, 7)` before `m[1] = 9` and nothing after it. -/
theorem mutation_changes_read_in_the_past :
    has_garbage state_history = false
      ∧ 0 < state_history._current
      ∧ at_const { state_history with _current := 0 } 1 = .ok 7
      ∧ assign state_history 2 9
          = some ⟨0, 5, [((2, 5), some 9), ((2, 0), some 7)], [(5, (2, 0))]⟩
      ∧ (assign state_history 2 9).map (fun m => at_const { m with _current := 0 } 1)
          = some (.ok 9)
      ∧ at_const { (erase state_history 2) with _current := 0 } 1 = .error .out_of_range
      ∧ has_garbage state_history_erased = false
      ∧ 1 < state_history_erased._current
      ∧ dump_map { state_history_erased with _current := 1 } = some [(2, 7)]
      ∧ (assign state_history_erased 1 9).map (fun m => dump_map { m with _current := 1 })
          = some (some []) := by
  decide

/-- C16 (the code breaks it): in `state_erased` the only key, `1`, has the
tombstone `(1, 5)` as newest version at `_current = 5` (`at(1) const` throws),
so no key `>= 1` is live; yet `lower_bound(1)` is not `end()`: it rests on the
older version `(1, 3)` and yields `(1, 1)`. -/
theorem lower_bound_rests_on_erased_key :
    state_erased._current = 5
      ∧ state_erased._tsmap = [((1, 5), none), ((1, 3), some 1)]
      ∧ at_const state_erased 1 = .error .out_of_range
      ∧ state_erased.lower_bound 1 = ⟨5, [((1, 3), some 1)]⟩
      ∧ deref (state_erased.lower_bound 1) = some (1, 1)
      ∧ (state_erased.lower_bound 1)._tsiter ≠ state_erased.end._tsiter := by
  decide

/-- C17: iterators never rest on an unreadable node.  The iterators returned by
`begin()`, `lower_bound(k)` and `upper_bound(k)` carry the read timestamp
`_current` and are at `end()` or on a live node stamped at most `_current`,
whose pair `operator*` returns; and `operator++` applied to any iterator that
is not at `end()` returns such an iterator again, for its read timestamp. -/
theorem iterators_rest_on_readable [LinearOrder K] (m : multiversion_map K V) :
    (∀ i : const_multiversion_iterator K V,
        (i = m.begin ∨ (∃ k, i = m.lower_bound k) ∨ (∃ k, i = m.upper_bound k)) →
        i._timestamp = m._current ∧
          (i._tsiter = [] ∨ ∃ e rest v, i._tsiter = e :: rest ∧ e.2 = some v
            ∧ e.1.2 ≤ m._current ∧ deref i = some (e.1.1, v)))
      ∧ (∀ j : const_multiversion_iterator K V, j._tsiter ≠ [] →
          ∃ i, incr j = some i ∧ i._timestamp = j._timestamp ∧
            (i._tsiter = [] ∨ ∃ e rest v, i._tsiter = e :: rest ∧ e.2 = some v
              ∧ e.1.2 ≤ j._timestamp ∧ deref i = some (e.1.1, v))) := by
  have key : ∀ (T : Nat) (pos : tsmap_type K V),
      (const_multiversion_iterator.mk1 T pos)._timestamp = T ∧
        ((const_multiversion_iterator.mk1 T pos)._tsiter = [] ∨
          ∃ e rest v, (const_multiversion_iterator.mk1 T pos)._tsiter = e :: rest
            ∧ e.2 = some v ∧ e.1.2 ≤ T
            ∧ deref (const_multiversion_iterator.mk1 T pos) = some (e.1.1, v)) := by
    intro T pos
    obtain ⟨h1, _, h3⟩ := mk1_readable T pos
    refine ⟨h1, ?_⟩
    rcases h3 with h | ⟨e, rest, v, he, hv, hT⟩
    · exact Or.inl h
    · exact Or.inr ⟨e, rest, v, he, hv, hT, by unfold deref; rw [he]; simp [hv]⟩
  constructor
  · intro i hi
    rcases hi with h | ⟨k, h⟩ | ⟨k, h⟩
    · rw [h]; exact key _ _
    · rw [h]; exact key _ _
    · rw [h]; exact key _ _
  · intro j hj
    obtain ⟨T, pos⟩ := j
    cases pos with
    | nil => exact absurd rfl hj
    | cons e rest =>
      refine ⟨⟨T, next_loop T (some e.1.1) rest⟩, by simp [incr, next], rfl, ?_⟩
      rcases next_loop_readable T rest (some e.1.1) with h | ⟨e1, rest1, v, he, hv, hT⟩
      · exact Or.inl h
      · exact Or.inr ⟨e1, rest1, v, he, hv, hT, by unfold deref; simp only [he]; simp [hv]⟩

/-- C17, at a concrete state: `begin()` of `state_erased` and its successor. -/
theorem iterators_rest_on_readable_witness :
    (state_erased.begin._timestamp = state_erased._current ∧
        (state_erased.begin._tsiter = [] ∨ ∃ e rest v,
          state_erased.begin._tsiter = e :: rest ∧ e.2 = some v
            ∧ e.1.2 ≤ state_erased._current ∧ deref state_erased.begin = some (e.1.1, v)))
      ∧ (∃ i, incr state_erased.begin = some i
          ∧ i._timestamp = state_erased.begin._timestamp ∧
          (i._tsiter = [] ∨ ∃ e rest v, i._tsiter = e :: rest ∧ e.2 = some v
            ∧ e.1.2 ≤ state_erased.begin._timestamp ∧ deref i = some (e.1.1, v)))
      ∧ state_erased.begin = ⟨5, [((1, 3), some 1)]⟩
      ∧ incr state_erased.begin = some ⟨5, []⟩ :=
  ⟨(iterators_rest_on_readable state_erased).1 state_erased.begin (Or.inl rfl),
    (iterators_rest_on_readable state_erased).2 state_erased.begin (by decide),
    by decide, by decide⟩

/-- C18: one pair per key, in key order.  On a well-formed store, for any read
timestamp `_current`, the iteration from `begin()` to `end()` ends, and the
keys of the pairs it yields are strictly increasing, so no key occurs twice. -/
theorem iteration_keys_strictly_increasing [LinearOrder K] (m : multiversion_map K V)
    (hs : tsmap_sorted m._tsmap) :
    ∃ l, dump_map m = some l ∧ l.Pairwise (fun p q => p.1 < q.1)
      ∧ (l.map Prod.fst).Nodup := by
  obtain ⟨h1, h2, h3⟩ := mk1_readable m._current m._tsmap
  have hlen : (const_multiversion_iterator.mk1 m._current m._tsmap)._tsiter.length
      < m._tsmap.length + 1 := Nat.lt_succ_of_le h2.length_le
  have hr : (const_multiversion_iterator.mk1 m._current m._tsmap)._tsiter = [] ∨
      ∃ e rest v, (const_multiversion_iterator.mk1 m._current m._tsmap)._tsiter = e :: rest
        ∧ e.2 = some v
        ∧ e.1.2 ≤ (const_multiversion_iterator.mk1 m._current m._tsmap)._timestamp := by
    rw [h1]; exact h3
  obtain ⟨l, hl, hpw, _⟩ := dump_loop_increasing (m._tsmap.length + 1)
    (const_multiversion_iterator.mk1 m._current m._tsmap)
    (tsmap_sorted_of_sublist h2.sublist hs) hr hlen
  refine ⟨l, hl, hpw, ?_⟩
  unfold List.Nodup
  rw [List.pairwise_map]
  exact hpw.imp (fun h => ne_of_lt h)

/-- C18, at a concrete state: the iteration of `state_three_obsolete`. -/
theorem iteration_keys_strictly_increasing_witness :
    dump_map state_three_obsolete = some [(1, 4), (2, 5), (3, 6)]
      ∧ ∃ l, dump_map state_three_obsolete = some l ∧ l.Pairwise (fun p q => p.1 < q.1)
        ∧ (l.map Prod.fst).Nodup :=
  ⟨by decide,
    iteration_keys_strictly_increasing state_three_obsolete (by unfold tsmap_sorted; decide)⟩

/-- C19 (the code breaks it): `state_three_obsolete`, built by the calls shown,
has three obsolete-index nodes below `_oldest = 7`; after `ceil(3/2) = 2` calls
of `clean(2)` the version `(3, 0)`, named by the index node `(6, (3, 0))`, is
still in the version store. -/
theorem clean_twice_leaves_eligible_version :
    (((((run_mvmap [map_op.assign 1 1, map_op.assign 2 2, map_op.assign 3 3]
          (multiversion_map.empty : multiversion_map Nat Nat)).bind
        (fun m => assign (set_timestamp m 0 4) 1 4)).bind
        (fun m => assign (set_timestamp m 0 5) 2 5)).bind
        (fun m => assign (set_timestamp m 0 6) 3 6)).map (fun m => set_timestamp m 7 7))
        = some state_three_obsolete
      ∧ (state_three_obsolete._obsmap.filter
          (fun o => decide (o.1 < state_three_obsolete._oldest))).length = 3
      ∧ (clean (clean state_three_obsolete kCleansPerUpdate) kCleansPerUpdate)._tsmap
          = [((1, 4), some 4), ((2, 5), some 5), ((3, 6), some 6), ((3, 0), some 3)]
      ∧ (6, (3, 0)) ∈ (clean (clean state_three_obsolete kCleansPerUpdate)
          kCleansPerUpdate)._obsmap
      ∧ ((3, 0), some 3) ∈ (clean (clean state_three_obsolete kCleansPerUpdate)
          kCleansPerUpdate)._tsmap := by
  decide

/-- C20 (the code breaks it): in `state_old_version`, whose only node is
`(1, 0) = 10` and whose `_current` is `4`, `upper_bound(1)` is not `end()`: it
rests on the node `(1, 0)` and yields `(1, 10)`, a pair whose key is `1`. -/
theorem upper_bound_yields_same_key :
    state_old_version._tsmap = [((1, 0), some 10)]
      ∧ state_old_version._current = 4
      ∧ state_old_version.upper_bound 1 = ⟨4, [((1, 0), some 10)]⟩
      ∧ deref (state_old_version.upper_bound 1) = some (1, 10)
      ∧ (state_old_version.upper_bound 1)._tsiter ≠ state_old_version.end._tsiter := by
  decide

end mongo
